import Mathlib

/-!
# Verification of rscode (rsync-style filename encoder and decoder)

Shallow embedding of `src/rscode.c`.  A record is a list of byte values
(`List Nat`, values `0 < b < 256` for the bytes of a C string; the value `0`
is the string terminator and never occurs inside a record).

The per-record transformations `encode`/`decode` of the C source write their
output with `putchar`/`fprintf`; here they are modelled as functions from the
input record to the list of bytes written.  `encodeStr`/`decodeStr` are the
bytes written by the scanning loop, and `encode`/`decode` append the final
terminator byte exactly as the C functions do (`encode` ends with
`putchar('\n')` unconditionally; `decode` ends with
`putchar(s_nulterm ? '\0' : '\n')`).
-/

/-- `isodigit` from rscode.c: `c >= '0' && c <= '7'` (strict octal digit). -/
def isodigit (c : Nat) : Bool :=
  decide (48 ≤ c) && decide (c ≤ 55)

/-- ctype `isdigit` in the C locale: `'0' <= c <= '9'` (lenient digit class). -/
def isdigit (c : Nat) : Bool :=
  decide (48 ≤ c) && decide (c ≤ 57)

/-- ctype `isprint` in the C locale: printable ASCII, `0x20 <= c <= 0x7e`. -/
def isprint (c : Nat) : Bool :=
  decide (32 ≤ c) && decide (c ≤ 126)

/-- `isascii`: `0 <= c <= 0x7f`. -/
def isascii (c : Nat) : Bool :=
  decide (c ≤ 127)

/-- `iseseq(s, strict)` from rscode.c: the string starts with `\`, `#` and
three digit-class bytes (strict: `'0'`-`'7'`; lenient: `'0'`-`'9'`).  The C
code checks `*s == '\\'`, then `strlen(s) >= 5`, then `s[1] == '#'`, then the
three digit bytes; on a NUL-free byte list this is the pattern below. -/
def iseseq (s : List Nat) (strict : Bool) : Bool :=
  match s with
  | c0 :: c1 :: c2 :: c3 :: c4 :: _ =>
      c0 == 92 && c1 == 35 &&
        (if strict then isodigit c2 && isodigit c3 && isodigit c4
         else isdigit c2 && isdigit c3 && isdigit c4)
  | _ => false

/-- `parseeseq` from rscode.c: `strtol` in base 8 of the three bytes after
`\#`.  Only meaningful when `iseseq s true` holds, in which case all three
bytes are octal digits and `strtol` yields the value below. -/
def parseeseq (s : List Nat) : Nat :=
  match s with
  | _ :: _ :: c2 :: c3 :: c4 :: _ => (c2 - 48) * 64 + (c3 - 48) * 8 + (c4 - 48)
  | _ => 0

/-- The five bytes printed by `fprintf(stdout, "\\#%03o", (unsigned char)b)`
for a byte value `b < 256` (`\`, `#`, three zero-padded octal digits). -/
def escBytes (b : Nat) : List Nat :=
  [92, 35, 48 + b / 64, 48 + b / 8 % 8, 48 + b % 8]

/-- The bytes written by the scanning loop of `encode` in rscode.c: a byte is
escaped when `iseseq(s, false) || !isprint(*s) || !isascii(*s)`, otherwise
passed through. -/
def encodeStr : List Nat → List Nat
  | [] => []
  | b :: t =>
      (if iseseq (b :: t) false || !(isprint b) || !(isascii b)
       then escBytes b else [b]) ++ encodeStr t

/-- `encode` from rscode.c: the scanned bytes followed by `putchar('\n')`
(the encoder's terminator is a line feed unconditionally). -/
def encode (s : List Nat) : List Nat :=
  encodeStr s ++ [10]

/-- Fuel-indexed decoding loop of `decode` in rscode.c.  Each iteration
consumes at least one input byte, so fuel `s.length` always suffices; the
fuel-0 case with a nonempty list is never reached from `decodeStr`. -/
def decodeN : Nat → List Nat → List Nat
  | _, [] => []
  | 0, b :: t => b :: t
  | fuel + 1, b :: t =>
      if iseseq (b :: t) true then
        parseeseq (b :: t) % 256 :: decodeN fuel (t.drop 4)
      else
        b :: decodeN fuel t

/-- The bytes written by the scanning loop of `decode` in rscode.c: a strict
escape sequence is replaced by `putchar(parseeseq(s))` (an `int` reduced
modulo 256 by `putchar`'s `unsigned char` conversion) and the scan advances
5 bytes (`s += 4` then `s++`); any other byte is passed through. -/
def decodeStr (s : List Nat) : List Nat :=
  decodeN s.length s

/-- `decode` from rscode.c: the scanned bytes followed by
`putchar(s_nulterm ? '\0' : '\n')`. -/
def decode (nulterm : Bool) (s : List Nat) : List Nat :=
  decodeStr s ++ [if nulterm then 0 else 10]

theorem decodeN_nil (f : Nat) : decodeN f [] = [] := by
  cases f <;> rfl

theorem decodeN_fuel_irrel : ∀ (f1 f2 : Nat) (s : List Nat),
    s.length ≤ f1 → s.length ≤ f2 → decodeN f1 s = decodeN f2 s := by
  intro f1
  induction f1 using Nat.strong_induction_on with
  | _ f1 ih =>
    intro f2 s h1 h2
    match s, f1, f2 with
    | [], _, _ => rw [decodeN_nil, decodeN_nil]
    | b :: t, g1 + 1, g2 + 1 =>
      simp only [List.length_cons] at h1 h2
      simp only [decodeN]
      by_cases he : iseseq (b :: t) true = true
      · rw [if_pos he, if_pos he]
        have hd : (t.drop 4).length ≤ g1 := by
          simp only [List.length_drop]; omega
        have hd2 : (t.drop 4).length ≤ g2 := by
          simp only [List.length_drop]; omega
        rw [ih g1 (Nat.lt_succ_self g1) g2 _ hd hd2]
      · rw [if_neg he, if_neg he]
        rw [ih g1 (Nat.lt_succ_self g1) g2 t (by omega) (by omega)]

/-- Unfolding equation for `decodeStr` on a nonempty record. -/
theorem decodeStr_cons (b : Nat) (t : List Nat) :
    decodeStr (b :: t) =
      if iseseq (b :: t) true then
        parseeseq (b :: t) % 256 :: decodeStr (t.drop 4)
      else
        b :: decodeStr t := by
  simp only [decodeStr, List.length_cons, decodeN]
  by_cases he : iseseq (b :: t) true = true
  · rw [if_pos he, if_pos he]
    have : (t.drop 4).length ≤ t.length := by
      simp only [List.length_drop]; omega
    rw [decodeN_fuel_irrel t.length (t.drop 4).length (t.drop 4) this le_rfl]
  · rw [if_neg he, if_neg he]

theorem decodeStr_nil : decodeStr [] = [] := rfl

/-!
## Record reader and argument handling

`main` in rscode.c, when no positional arguments are given, reads bytes from
the input stream into a growable buffer and, at each occurrence of the
terminator byte `(!s_decode && s_nulterm ? '\0' : '\n')`, NUL-terminates the
buffer and hands it to the selected transformation.  At end of stream a
nonempty leftover buffer is processed as one final record after a warning.
Since the buffer is passed as a C string, record bytes at and after an
embedded NUL are invisible to the transformation; `cstr` models that cut.
-/

/-- The terminator byte at which the stream loop of `main` splits records:
`!s_decode && s_nulterm ? '\0' : '\n'`. -/
def streamTerm (dec nulterm : Bool) : Nat :=
  if !dec && nulterm then 0 else 10

/-- The prefix of a buffer up to its first NUL byte: the part of the record
that survives being handed over as a NUL-terminated C string. -/
def cstr (r : List Nat) : List Nat :=
  r.takeWhile (fun b => b ≠ 0)

/-- The stream loop of `main`: splits the input byte list into the records
completed by a terminator byte, plus the leftover buffer at end of stream. -/
def splitLoop (term : Nat) (buf : List Nat) : List Nat → List (List Nat) × List Nat
  | [] => ([], buf)
  | c :: rest =>
      if c = term then
        (buf :: (splitLoop term [] rest).1, (splitLoop term [] rest).2)
      else
        splitLoop term (buf ++ [c]) rest

/-- The transformation `encdec` selected in `main`:
`s_decode ? decode : encode`. -/
def transform (dec nulterm : Bool) (r : List Nat) : List Nat :=
  if dec then decode nulterm r else encode r

/-- Stream-mode processing of `main`: standard-output bytes and diagnostics
emitted for a given input stream, for the configuration `(dec, nulterm)`.
A nonempty leftover buffer at end of stream yields a warning and one final
record (rscode.c lines 248-252); the program then exits successfully. -/
def streamRun (dec nulterm : Bool) (input : List Nat) : List Nat × List String :=
  let p := splitLoop (streamTerm dec nulterm) [] input
  let outs := (p.1.map (fun r => transform dec nulterm (cstr r))).flatten
  if p.2 = [] then
    (outs, [])
  else
    (outs ++ transform dec nulterm (cstr p.2),
     ["warning: terminator missing on last input entry"])

/-- The command-line options handled by the `getopt` loop of `process_args`
(`-h` and `-V` terminate the program before any processing and are omitted). -/
inductive Opt where
  | e : Opt
  | d : Opt
  | f : Opt
  | zero : Opt
deriving DecidableEq

/-- The global flags set by the `getopt` loop: `s_decode`, whether `s_inpstr`
was set (by `-f`), and `s_nulterm`. -/
structure Flags where
  decode : Bool
  inpstr : Bool
  nulterm : Bool
deriving DecidableEq

/-- All three flags start out false (`s_inpstr` null). -/
def flags0 : Flags := ⟨false, false, false⟩

/-- One iteration of the `switch` in `process_args`.  The `case 'f'` branch
sets `s_inpstr` and then, having no `break`, falls through into `case '0'`,
so `-f` also sets `s_nulterm`. -/
def applyOpt (fl : Flags) : Opt → Flags
  | Opt.e => { fl with decode := false }
  | Opt.d => { fl with decode := true }
  | Opt.f => { fl with inpstr := true, nulterm := true }
  | Opt.zero => { fl with nulterm := true }

/-- The configuration `process_args` leaves behind for `main`, together with
the warnings it printed. -/
structure Config where
  decode : Bool
  nulterm : Bool
  useArgs : Bool
  warnings : List String
deriving DecidableEq

/-- The flags after the whole `getopt` loop of `process_args`. -/
def flagsOf (opts : List Opt) : Flags :=
  opts.foldl applyOpt flags0

/-- `process_args` from rscode.c after the `getopt` loop: with `nargs`
positional arguments remaining, it is fatal (`errx`) to have both arguments
and `-f`; then `-0` is ignored with a warning when arguments are present and
the mode is not decode (`*argc && !s_decode && s_nulterm`). -/
def process_args (opts : List Opt) (nargs : Nat) : Except String Config :=
  if nargs ≠ 0 ∧ (flagsOf opts).inpstr = true then
    Except.error "error: arguments and -f present, wat do?!"
  else if nargs ≠ 0 ∧ (flagsOf opts).decode = false ∧ (flagsOf opts).nulterm = true then
    Except.ok ⟨(flagsOf opts).decode, false, nargs ≠ 0,
               ["warning: ignoring -0 because arguments are provided"]⟩
  else
    Except.ok ⟨(flagsOf opts).decode, (flagsOf opts).nulterm, nargs ≠ 0, []⟩

/-- `main` from rscode.c as a function from the configuration, the positional
arguments and the input stream to either a fatal error message or the pair of
standard-output bytes and diagnostics.  In argument mode each argument is one
record and the stream is not consulted. -/
def run (opts : List Opt) (args : List (List Nat)) (input : List Nat) :
    Except String (List Nat × List String) :=
  match process_args opts args.length with
  | Except.error e => Except.error e
  | Except.ok cfg =>
      if args.length ≠ 0 then
        Except.ok ((args.map (transform cfg.decode cfg.nulterm)).flatten, cfg.warnings)
      else
        let p := streamRun cfg.decode cfg.nulterm input
        Except.ok (p.1, cfg.warnings ++ p.2)

/-!
## Helper lemmas for the transcoder
-/

theorem isodigit_iff (c : Nat) : isodigit c = true ↔ 48 ≤ c ∧ c ≤ 55 := by
  simp [isodigit]

theorem isdigit_iff (c : Nat) : isdigit c = true ↔ 48 ≤ c ∧ c ≤ 57 := by
  simp [isdigit]

theorem isprint_iff (c : Nat) : isprint c = true ↔ 32 ≤ c ∧ c ≤ 126 := by
  simp [isprint]

theorem isodigit_isdigit (c : Nat) (h : isodigit c = true) : isdigit c = true := by
  rw [isodigit_iff] at h
  rw [isdigit_iff]
  omega

theorem isodigit_ne_92 (c : Nat) (h : isodigit c = true) : c ≠ 92 := by
  rw [isodigit_iff] at h
  omega

/-- A byte other than a backslash never starts an escape sequence. -/
theorem iseseq_false_of_head (b : Nat) (t : List Nat) (strict : Bool)
    (h : b ≠ 92) : iseseq (b :: t) strict = false := by
  match t with
  | c1 :: c2 :: c3 :: c4 :: u => simp [iseseq, h]
  | [] => rfl
  | [c1] => rfl
  | [c1, c2] => rfl
  | [c1, c2, c3] => rfl

/-- Shape of a string starting a strict escape sequence after a backslash. -/
theorem iseseq_strict_shape (x : List Nat) (h : iseseq (92 :: x) true = true) :
    ∃ c2 c3 c4 u, x = 35 :: c2 :: c3 :: c4 :: u ∧
      isodigit c2 = true ∧ isodigit c3 = true ∧ isodigit c4 = true := by
  match x with
  | c1 :: c2 :: c3 :: c4 :: u =>
    simp only [iseseq, beq_iff_eq, if_true, Bool.and_eq_true] at h
    refine ⟨c2, c3, c4, u, ?_, ?_, ?_, ?_⟩ <;> simp_all
  | [] => simp [iseseq] at h
  | [c1] => simp [iseseq] at h
  | [c1, c2] => simp [iseseq] at h
  | [c1, c2, c3] => simp [iseseq] at h

/-- Inversion for the encoder: if the encoded text starts with a byte other
than a backslash, that byte was passed through literally. -/
theorem encodeStr_head_inv (u : List Nat) (c : Nat) (v : List Nat)
    (hc : c ≠ 92) (h : encodeStr u = c :: v) :
    ∃ u', u = c :: u' ∧ encodeStr u' = v ∧ iseseq (c :: u') false = false := by
  match u with
  | [] => simp [encodeStr] at h
  | x :: u' =>
    simp only [encodeStr] at h
    by_cases hg : (iseseq (x :: u') false || !(isprint x) || !(isascii x)) = true
    · rw [if_pos hg] at h
      simp only [escBytes, List.cons_append] at h
      injection h with h1 _
      exact absurd h1.symm hc
    · rw [if_neg hg] at h
      simp only [List.cons_append, List.nil_append] at h
      injection h with h1 h2
      subst h1
      simp only [Bool.or_eq_true, not_or, Bool.not_eq_true] at hg
      exact ⟨u', rfl, h2, hg.1.1⟩

/-- Decoding an escape token emitted by the encoder recovers the byte. -/
theorem decodeStr_escBytes (b : Nat) (hb : b < 256) (u : List Nat) :
    decodeStr (escBytes b ++ u) = b :: decodeStr u := by
  have hshape : escBytes b ++ u =
      92 :: 35 :: (48 + b / 64) :: (48 + b / 8 % 8) :: (48 + b % 8) :: u := rfl
  rw [hshape, decodeStr_cons]
  have he : iseseq
      (92 :: 35 :: (48 + b / 64) :: (48 + b / 8 % 8) :: (48 + b % 8) :: u)
      true = true := by
    simp [iseseq, isodigit]
    omega
  rw [if_pos he]
  have hp : parseeseq
      (92 :: 35 :: (48 + b / 64) :: (48 + b / 8 % 8) :: (48 + b % 8) :: u) = b := by
    simp only [parseeseq]
    omega
  rw [hp, Nat.mod_eq_of_lt hb]
  simp [List.drop]

/-- If a record does not start with a lenient escape sequence after a
backslash, then its encoding does not start with a strict escape sequence
after a backslash: the decoder cannot misfire on a literal backslash. -/
theorem no_strict_misfire (t : List Nat) (hl : iseseq (92 :: t) false = false) :
    iseseq (92 :: encodeStr t) true = false := by
  cases hc : iseseq (92 :: encodeStr t) true with
  | false => rfl
  | true =>
    exfalso
    obtain ⟨c2, c3, c4, u, hshape, h2, h3, h4⟩ := iseseq_strict_shape (encodeStr t) hc
    obtain ⟨t1, ht1, he1, -⟩ := encodeStr_head_inv t 35 _ (by decide) hshape
    obtain ⟨t2, ht2, he2, -⟩ := encodeStr_head_inv t1 c2 _ (isodigit_ne_92 c2 h2) he1
    obtain ⟨t3, ht3, he3, -⟩ := encodeStr_head_inv t2 c3 _ (isodigit_ne_92 c3 h3) he2
    obtain ⟨t4, ht4, he4, -⟩ := encodeStr_head_inv t3 c4 _ (isodigit_ne_92 c4 h4) he3
    subst ht4
    subst ht3
    subst ht2
    subst ht1
    simp [iseseq, isodigit_isdigit c2 h2, isodigit_isdigit c3 h3,
      isodigit_isdigit c4 h4] at hl

/-- A record contains no occurrence (at any position) of a literal backslash
followed by `#` and three lenient digits. -/
def noLenientEseq : List Nat → Bool
  | [] => true
  | b :: t => !(iseseq (b :: t) false) && noLenientEseq t

/-!
## Helper lemmas for the record reader and argument handling
-/

/-- Correctness of the stream loop: the completed records joined with the
terminator, followed by the leftover buffer, reconstitute the pending buffer
and the remaining input, and no record and no leftover contains the
terminator byte. -/
theorem splitLoop_spec (term : Nat) :
    ∀ (input buf : List Nat), term ∉ buf →
      ((splitLoop term buf input).1.map (fun r => r ++ [term])).flatten
          ++ (splitLoop term buf input).2 = buf ++ input ∧
      (∀ r ∈ (splitLoop term buf input).1, term ∉ r) ∧
      term ∉ (splitLoop term buf input).2 := by
  intro input
  induction input with
  | nil =>
    intro buf hbuf
    refine ⟨by simp [splitLoop], ?_, ?_⟩
    · intro r hr
      simp [splitLoop] at hr
    · simpa [splitLoop] using hbuf
  | cons c rest ih =>
    intro buf hbuf
    by_cases hc : c = term
    · subst hc
      simp only [splitLoop, eq_self_iff_true, if_true]
      obtain ⟨ha, hr, hl⟩ := ih [] (List.not_mem_nil _)
      refine ⟨?_, ?_, hl⟩
      · simp only [List.map_cons, List.flatten_cons, List.append_assoc]
        rw [ha]
        simp
      · intro r hmem
        rcases List.mem_cons.mp hmem with h | h
        · subst h; exact hbuf
        · exact hr r h
    · simp only [splitLoop, if_neg hc]
      have hbuf' : term ∉ buf ++ [c] := by
        simp only [List.mem_append, List.mem_singleton]
        rintro (h | h)
        · exact hbuf h
        · exact hc h.symm
      obtain ⟨ha, hr, hl⟩ := ih (buf ++ [c]) hbuf'
      refine ⟨?_, hr, hl⟩
      rw [ha]
      simp

/-- `applyOpt` never clears the `inpstr` flag. -/
theorem foldl_inpstr_mono :
    ∀ (opts : List Opt) (fl : Flags), fl.inpstr = true →
      (opts.foldl applyOpt fl).inpstr = true := by
  intro opts
  induction opts with
  | nil => intro fl h; exact h
  | cons o rest ih =>
    intro fl h
    simp only [List.foldl_cons]
    apply ih
    cases o <;> simp [applyOpt, h]

/-- If `-f` occurs among the options, `s_inpstr` ends up set. -/
theorem flagsOf_inpstr_of_mem :
    ∀ (opts : List Opt) (fl : Flags), Opt.f ∈ opts →
      (opts.foldl applyOpt fl).inpstr = true := by
  intro opts
  induction opts with
  | nil => intro fl h; cases h
  | cons o rest ih =>
    intro fl h
    simp only [List.foldl_cons]
    rcases List.mem_cons.mp h with h1 | h2
    · subst h1
      exact foldl_inpstr_mono rest _ rfl
    · exact ih _ h2

/-!
## Claim theorems
-/

/-- Claim C1: for every NUL-free byte record `r` containing no occurrence of
a literal backslash followed by `#` and three lenient-digit-class bytes,
decoding the encoding of `r` yields `r` again, where `encodeStr`/`decodeStr`
are the per-record transformations without their appended terminator byte. -/
theorem C1_decode_encode_roundtrip (r : List Nat)
    (hb : ∀ b ∈ r, 0 < b ∧ b < 256) (h : noLenientEseq r = true) :
    decodeStr (encodeStr r) = r := by
  induction r with
  | nil => rfl
  | cons b t ih =>
    simp only [noLenientEseq, Bool.and_eq_true, Bool.not_eq_true'] at h
    obtain ⟨h1, h2⟩ := h
    have hb1 : 0 < b ∧ b < 256 := hb b (List.mem_cons_self b t)
    have hbt : ∀ x ∈ t, 0 < x ∧ x < 256 := fun x hx => hb x (List.mem_cons_of_mem b hx)
    have iht := ih hbt h2
    simp only [encodeStr, h1, Bool.false_or]
    by_cases hesc : (!(isprint b) || !(isascii b)) = true
    · rw [if_pos hesc, decodeStr_escBytes b hb1.2, iht]
    · rw [if_neg hesc]
      simp only [List.cons_append, List.nil_append]
      have hne : iseseq (b :: encodeStr t) true = false := by
        by_cases hb92 : b = 92
        · subst hb92
          exact no_strict_misfire t h1
        · exact iseseq_false_of_head b _ true hb92
      rw [decodeStr_cons, if_neg (by rw [hne]; exact Bool.false_ne_true), iht]

/-- Witness for C1 at the concrete record `[1, 92, 65]` (a non-printable
byte, a literal backslash not starting an escape lookalike, and `A`). -/
theorem C1_decode_encode_roundtrip_witness :
    (∀ b ∈ [1, 92, 65], 0 < b ∧ b < 256) ∧
      noLenientEseq [1, 92, 65] = true ∧
      decodeStr (encodeStr [1, 92, 65]) = [1, 92, 65] :=
  ⟨by decide, by decide,
   C1_decode_encode_roundtrip [1, 92, 65] (by decide) (by decide)⟩

/-- Claim C2: the encoder escapes a literal backslash exactly when it is
followed by `#` and three lenient-digit-class bytes; concretely, encoding
`\#123` yields the 9 bytes `\#134#123`, encoding a raw backslash followed by
`#189` yields `\#134#189` even though `8`/`9` are not octal digits, and
decoding the literal text `\#189` leaves it unchanged. -/
theorem C2_backslash_escaping (t : List Nat) :
    encodeStr (92 :: t) =
      (if iseseq (92 :: t) false then escBytes 92 ++ encodeStr t
       else 92 :: encodeStr t) ∧
    encodeStr [92, 35, 49, 50, 51] = [92, 35, 49, 51, 52, 35, 49, 50, 51] ∧
    encodeStr [92, 35, 49, 56, 57] = [92, 35, 49, 51, 52, 35, 49, 56, 57] ∧
    decodeStr [92, 35, 49, 56, 57] = [92, 35, 49, 56, 57] := by
  refine ⟨?_, by decide, by decide, by decide⟩
  have h1 : isprint 92 = true := by decide
  have h2 : isascii 92 = true := by decide
  simp only [encodeStr, h1, h2, Bool.not_true, Bool.or_false]
  by_cases hg : iseseq (92 :: t) false = true
  · rw [if_pos hg, if_pos hg]
  · rw [if_neg hg, if_neg hg]
    simp

/-- Claim C3: the decoder scans left to right: whenever the next 5 bytes are
`\`, `#` and three strict octal digits it emits the byte value of the 3-digit
octal number (reduced to a byte by `putchar`) and advances 5 bytes; otherwise
it emits the current byte and advances 1 byte; the output is followed by a
newline terminator by default or a NUL byte in NUL-termination mode; the
decoder is a total function, with no error condition for any record. -/
theorem C3_decode_postcondition (s : List Nat) (nulterm : Bool) :
    decodeStr s =
      (if iseseq s true then parseeseq s % 256 :: decodeStr (s.drop 5)
       else
         match s with
         | [] => []
         | b :: t => b :: decodeStr t) ∧
    decode nulterm s = decodeStr s ++ [if nulterm then 0 else 10] := by
  refine ⟨?_, rfl⟩
  match s with
  | [] => simp [iseseq, decodeStr_nil]
  | b :: t =>
    rw [decodeStr_cons]
    simp only [List.drop_succ_cons]

/-- Claim C10: the decoder recognizes strict escape tokens denoting values
above 255 (`\#400` through `\#777`) and emits the value reduced modulo 256;
decoding `\#777` (octal 511) emits the single byte 255; the encoder never
produces such a token, since the token it emits for a byte `b < 256` parses
back to `b` itself. -/
theorem C10_overlarge_tokens (d1 d2 d3 b : Nat)
    (h1 : isodigit d1 = true) (h2 : isodigit d2 = true) (h3 : isodigit d3 = true)
    (hv : 255 < (d1 - 48) * 64 + (d2 - 48) * 8 + (d3 - 48)) (hb : b < 256) :
    iseseq [92, 35, d1, d2, d3] true = true ∧
    decodeStr [92, 35, d1, d2, d3] =
      [((d1 - 48) * 64 + (d2 - 48) * 8 + (d3 - 48)) % 256] ∧
    decodeStr [92, 35, 55, 55, 55] = [255] ∧
    parseeseq (escBytes b) = b ∧
    escBytes b ≠ [92, 35, d1, d2, d3] := by
  have he : iseseq [92, 35, d1, d2, d3] true = true := by
    simp [iseseq, h1, h2, h3]
  have hparse : parseeseq (escBytes b) = b := by
    simp only [parseeseq, escBytes]
    omega
  refine ⟨he, ?_, by decide, hparse, ?_⟩
  · rw [show ([92, 35, d1, d2, d3] : List Nat) = 92 :: [35, d1, d2, d3] from rfl,
      decodeStr_cons, if_pos he]
    simp [parseeseq, decodeStr_nil, List.drop]
  · intro heq
    rw [heq] at hparse
    simp only [parseeseq] at hparse
    omega

/-- Witness for C10 at the token `\#777` and the byte `0`. -/
theorem C10_overlarge_tokens_witness :
    iseseq [92, 35, 55, 55, 55] true = true ∧
    decodeStr [92, 35, 55, 55, 55] =
      [((55 - 48) * 64 + (55 - 48) * 8 + (55 - 48)) % 256] ∧
    decodeStr [92, 35, 55, 55, 55] = [255] ∧
    parseeseq (escBytes 0) = 0 ∧
    escBytes 0 ≠ [92, 35, 55, 55, 55] :=
  C10_overlarge_tokens 55 55 55 0 (by decide) (by decide) (by decide)
    (by decide) (by decide)

/-- Counterexample to claim C4 as stated: with NUL-termination mode requested
in decode mode, the stream-splitting terminator is still line-feed (10), not
NUL: NUL bytes in decode-mode stream input never complete a record. -/
theorem C4_splitting_counterexample :
    streamTerm true true = 10 ∧ (10 : Nat) ≠ 0 ∧
    (splitLoop (streamTerm true true) [] [65, 0, 66, 0]).1 = [] := by decide

/-- Claim C4 (amended): in stream mode the input is split into records at a
terminator byte that is line-feed by default and NUL exactly when
NUL-termination mode was requested together with encode mode (NUL framing
applies to encode input; decode-mode stream input is always split at
line-feed); splitting is exact: the records joined with the terminator,
followed by the leftover, reconstitute the input, and no record and no
leftover contains the terminator. -/
theorem C4_stream_splitting (dec nulterm : Bool) (input : List Nat) :
    streamTerm dec nulterm = (if dec = false ∧ nulterm = true then 0 else 10) ∧
    ((splitLoop (streamTerm dec nulterm) [] input).1.map
        (fun r => r ++ [streamTerm dec nulterm])).flatten
      ++ (splitLoop (streamTerm dec nulterm) [] input).2 = input ∧
    streamTerm dec nulterm ∉
      ((splitLoop (streamTerm dec nulterm) [] input).1).flatten ∧
    streamTerm dec nulterm ∉ (splitLoop (streamTerm dec nulterm) [] input).2 := by
  obtain ⟨ha, hr, hl⟩ :=
    splitLoop_spec (streamTerm dec nulterm) input [] (List.not_mem_nil _)
  refine ⟨?_, by simpa using ha, ?_, hl⟩
  · cases dec <;> cases nulterm <;> rfl
  · intro hmem
    rw [List.mem_flatten] at hmem
    obtain ⟨r, hrr, hmm⟩ := hmem
    exact hr r hrr hmm

/-- Claim C5: the `case 'f'` fall-through sets the NUL-termination flag, so
an invocation with `-f` and no positional arguments behaves exactly as if
`-0` had also been given: the resulting configuration is the same, its
NUL-termination flag is set, encode mode then splits stream records at NUL,
and decode mode NUL-terminates its output. -/
theorem C5_f_fallthrough (opts : List Opt) (r : List Nat) :
    flagsOf (opts ++ [Opt.f]) =
      { flagsOf opts with inpstr := true, nulterm := true } ∧
    process_args (opts ++ [Opt.f]) 0 = process_args (opts ++ [Opt.f, Opt.zero]) 0 ∧
    (flagsOf (opts ++ [Opt.f])).nulterm = true ∧
    streamTerm false true = 0 ∧
    decode true r = decodeStr r ++ [0] := by
  have hf : flagsOf (opts ++ [Opt.f]) =
      { flagsOf opts with inpstr := true, nulterm := true } := by
    simp [flagsOf, List.foldl_append, applyOpt]
  have hfz : flagsOf (opts ++ [Opt.f, Opt.zero]) =
      { flagsOf opts with inpstr := true, nulterm := true } := by
    simp [flagsOf, List.foldl_append, applyOpt]
  refine ⟨hf, ?_, ?_, rfl, rfl⟩
  · simp [process_args, hf, hfz]
  · rw [hf]

/-- Counterexample to claim C6 as stated: encoding the record `A` with
NUL-termination mode active still appends the line-feed terminator, not the
NUL byte chosen for that mode. -/
theorem C6_encode_terminator_counterexample :
    transform false true [65] = [65, 10] ∧ (10 : Nat) ≠ 0 := by decide

/-- Claim C6 (amended): the encoder's output is the encoded text followed by
a line-feed terminator unconditionally, regardless of NUL-termination mode;
the NUL terminator choice applies only to decode output. -/
theorem C6_encode_terminator (nulterm : Bool) (r : List Nat) :
    transform false nulterm r = encodeStr r ++ [10] ∧
    transform true nulterm r = decodeStr r ++ [if nulterm then 0 else 10] :=
  ⟨rfl, rfl⟩

/-- Claim C7: an invocation with both `-f` and at least one positional
argument is a fatal configuration error: the program yields the diagnostic
and a nonzero exit, with no standard output and no record processed. -/
theorem C7_config_error (opts : List Opt) (args : List (List Nat))
    (input : List Nat) (hf : Opt.f ∈ opts) (ha : args ≠ []) :
    run opts args input =
      Except.error "error: arguments and -f present, wat do?!" := by
  have hi : (flagsOf opts).inpstr = true := flagsOf_inpstr_of_mem opts flags0 hf
  have hn : args.length ≠ 0 := by
    cases args with
    | nil => exact absurd rfl ha
    | cons x xs => simp
  simp [run, process_args, hi, hn]

/-- Witness for C7: `-f` together with the positional argument `A`. -/
theorem C7_config_error_witness :
    run [Opt.f] [[65]] [] =
      Except.error "error: arguments and -f present, wat do?!" :=
  C7_config_error [Opt.f] [[65]] [] (by decide) (by decide)

/-- Claim C8: in stream mode, nonempty trailing data after the last
terminator is still processed as one final record whose transformed output is
emitted after the complete records' output, together with the non-fatal
missing-terminator warning; the run still completes successfully
(`Except.ok`). -/
theorem C8_unterminated_final_record (opts : List Opt) (input : List Nat)
    (cfg : Config) (hok : process_args opts 0 = Except.ok cfg)
    (hlo : (splitLoop (streamTerm cfg.decode cfg.nulterm) [] input).2 ≠ []) :
    run opts [] input = Except.ok
      (((splitLoop (streamTerm cfg.decode cfg.nulterm) [] input).1.map
          (fun r => transform cfg.decode cfg.nulterm (cstr r))).flatten
        ++ transform cfg.decode cfg.nulterm
             (cstr (splitLoop (streamTerm cfg.decode cfg.nulterm) [] input).2),
       cfg.warnings ++ ["warning: terminator missing on last input entry"]) := by
  simp [run, hok, streamRun, hlo]

/-- Witness for C8: default configuration, input `A` with no trailing
line-feed: the record is encoded and the warning is emitted. -/
theorem C8_unterminated_final_record_witness :
    run [] [] [65] = Except.ok
      ([65, 10], ["warning: terminator missing on last input entry"]) := by
  have h := C8_unterminated_final_record [] [65]
    ⟨false, false, false, []⟩ (by rfl) (by decide)
  rw [h]
  rfl

/-- Claim C9: the NUL-termination flag is ignored, with the warning
diagnostic, exactly when positional arguments are present, the mode is encode
and the flag was set; in every other successful configuration no warning is
issued and the flag is preserved. -/
theorem C9_zero_suppression (opts : List Opt) (nargs : Nat) (cfg : Config)
    (hok : process_args opts nargs = Except.ok cfg) :
    (cfg.warnings = ["warning: ignoring -0 because arguments are provided"] ↔
      nargs ≠ 0 ∧ (flagsOf opts).decode = false ∧ (flagsOf opts).nulterm = true) ∧
    (cfg.warnings = [] ↔
      ¬(nargs ≠ 0 ∧ (flagsOf opts).decode = false ∧
          (flagsOf opts).nulterm = true)) ∧
    cfg.decode = (flagsOf opts).decode ∧
    (cfg.warnings = [] → cfg.nulterm = (flagsOf opts).nulterm) ∧
    (cfg.warnings ≠ [] → cfg.nulterm = false) := by
  unfold process_args at hok
  by_cases hA : nargs ≠ 0 ∧ (flagsOf opts).inpstr = true
  · rw [if_pos hA] at hok
    cases hok
  · rw [if_neg hA] at hok
    by_cases hB : nargs ≠ 0 ∧ (flagsOf opts).decode = false ∧
        (flagsOf opts).nulterm = true
    · rw [if_pos hB] at hok
      injection hok with h
      subst h
      simp [hB]
    · rw [if_neg hB] at hok
      injection hok with h
      subst h
      simp [hB]

/-- Witness for C9: `-0` with one positional argument in encode mode yields
the warning and a cleared NUL-termination flag. -/
theorem C9_zero_suppression_witness :
    process_args [Opt.zero] 1 = Except.ok
      ⟨false, false, true, ["warning: ignoring -0 because arguments are provided"]⟩ ∧
    (⟨false, false, true,
      ["warning: ignoring -0 because arguments are provided"]⟩ : Config).nulterm
      = false := by
  have h := C9_zero_suppression [Opt.zero] 1
    ⟨false, false, true, ["warning: ignoring -0 because arguments are provided"]⟩
    (by rfl)
  exact ⟨by rfl, h.2.2.2.2 (by simp)⟩
